import Mathlib

set_option maxHeartbeats 1000000

/-!
Verification development for the linear-ingest pipeline
(`ingest_linear.py`, `youtube_duration.py`, `_remote_main.py`).

Strings are modelled as `List Char`; every Python function used by the
claims is embedded as an executable Lean definition that mirrors the
source line by line.  Network effects are modelled as explicit oracles
(the outcome of an HTTP call is a parameter of the embedded function).
-/

namespace Ingest

/-! ## Character and string utilities (Python `str` operations) -/

/-- ASCII whitespace, the character class stripped by `str.strip()` and
matched by the regex class used in the scraped patterns. -/
def isSpaceC (c : Char) : Bool :=
  c == ' ' || c == '\t' || c == '\n' || c == '\r' || c == '\x0b' || c == '\x0c'

/-- Python `s.strip()`: drop leading and trailing whitespace. -/
def stripChars (s : List Char) : List Char :=
  ((s.dropWhile isSpaceC).reverse.dropWhile isSpaceC).reverse

/-- Boolean test that `p` is a literal leading substring of `s`. -/
def litPref : List Char → List Char → Bool
  | [], _ => true
  | _ :: _, [] => false
  | a :: p, b :: s => a == b && litPref p s

/-- Split at the first occurrence of `sep`: returns the part before the
occurrence and the part after it, or `none` when `sep` does not occur.
This models the information content of Python `s.split(sep)` around the
first separator. -/
def splitFirst (sep : List Char) : List Char → Option (List Char × List Char)
  | [] => if litPref sep [] then some ([], []) else none
  | c :: s =>
    if litPref sep (c :: s) then some ([], (c :: s).drop sep.length)
    else (splitFirst sep s).map (fun p => (c :: p.1, p.2))

/-- Python `s.split(sep)[0]`: everything before the first occurrence of
`sep`, or all of `s` when `sep` does not occur. -/
def upToFirstOcc (sep s : List Char) : List Char :=
  match splitFirst sep s with
  | some p => p.1
  | none => s

/-- Python `sep in s`. -/
def containsSub (sep s : List Char) : Bool :=
  (splitFirst sep s).isSome

theorem litPref_iff (p : List Char) : ∀ s, litPref p s = true ↔ ∃ t, s = p ++ t := by
  induction p with
  | nil => intro s; simp [litPref]
  | cons a p ih =>
    intro s
    cases s with
    | nil => simp [litPref]
    | cons b s =>
      simp only [litPref, Bool.and_eq_true, beq_iff_eq, List.cons_append]
      constructor
      · rintro ⟨rfl, h⟩
        obtain ⟨t, rfl⟩ := (ih s).mp h
        exact ⟨t, rfl⟩
      · rintro ⟨t, h⟩
        cases h
        exact ⟨rfl, (ih _).mpr ⟨t, rfl⟩⟩

theorem splitFirst_eq_none (sep : List Char) :
    ∀ s, (∀ i, litPref sep (s.drop i) = false) → splitFirst sep s = none := by
  intro s
  induction s with
  | nil =>
    intro h
    have h0 := h 0
    simp only [List.drop_nil, List.drop_zero] at h0
    simp [splitFirst, h0]
  | cons c s ih =>
    intro h
    have h0 := h 0
    simp only [List.drop_zero] at h0
    have hrest : ∀ i, litPref sep (s.drop i) = false := by
      intro i
      have := h (i + 1)
      simpa using this
    simp [splitFirst, h0, ih hrest]

theorem litPref_append_left (sep : List Char) :
    ∀ (x y : List Char), sep.length ≤ x.length → litPref sep (x ++ y) = litPref sep x := by
  induction sep with
  | nil => intro x y _; simp [litPref]
  | cons a p ih =>
    intro x y hlen
    cases x with
    | nil => simp at hlen
    | cons b s =>
      have ihs := ih s y (by simpa using Nat.le_of_succ_le_succ hlen)
      simp [litPref, ihs]

theorem splitFirst_boundary (sep A b : List Char) (hsep : sep ≠ [])
    (hA : ∀ i, i < A.length → litPref sep ((A ++ sep).drop i) = false) :
    splitFirst sep (A ++ (sep ++ b)) = some (A, b) := by
  induction A with
  | nil =>
    obtain ⟨c, sep', rfl⟩ : ∃ c sep', sep = c :: sep' := by
      cases sep with
      | nil => exact absurd rfl hsep
      | cons c sep' => exact ⟨c, sep', rfl⟩
    have hpref : litPref (c :: sep') ((c :: sep') ++ b) = true :=
      (litPref_iff _ _).mpr ⟨b, rfl⟩
    simp only [List.nil_append]
    rw [List.cons_append, splitFirst]
    rw [← List.cons_append, hpref]
    simp [List.drop_left]
  | cons a A' ih =>
    have h0 : litPref sep (a :: (A' ++ (sep ++ b))) = false := by
      have hx := hA 0 (by simp)
      simp only [List.drop_zero] at hx
      have hlen : sep.length ≤ ((a :: A') ++ sep).length := by
        simp; omega
      calc litPref sep (a :: (A' ++ (sep ++ b)))
          = litPref sep (((a :: A') ++ sep) ++ b) := by simp
        _ = litPref sep ((a :: A') ++ sep) := litPref_append_left _ _ _ hlen
        _ = false := hx
    have hA' : ∀ i, i < A'.length → litPref sep ((A' ++ sep).drop i) = false := by
      intro i hi
      have := hA (i + 1) (by simpa using Nat.succ_lt_succ hi)
      simpa using this
    have hrec := ih hA'
    show splitFirst sep (a :: (A' ++ (sep ++ b))) = some (a :: A', b)
    simp [splitFirst, h0, hrec]

theorem splitFirst_append_none (sep P idp : List Char) (c : Char)
    (hc0 : c ∈ sep)
    (hc1 : ∀ r, r < sep.length → 0 < r → c ∈ sep.drop r)
    (hP : ∀ i, i < P.length → litPref sep (P.drop i) = false)
    (hid : c ∉ idp) :
    splitFirst sep (P ++ idp) = none := by
  apply splitFirst_eq_none
  intro i
  by_contra hocc
  rw [Bool.not_eq_false] at hocc
  obtain ⟨t, ht⟩ := (litPref_iff _ _).mp hocc
  rcases Nat.lt_or_ge i P.length with hi | hi
  · -- occurrence starts inside `P`
    have hdrop : (P ++ idp).drop i = P.drop i ++ idp := by
      rw [List.drop_append_eq_append_drop]
      have : i - P.length = 0 := Nat.sub_eq_zero_of_le (Nat.le_of_lt hi)
      rw [this, List.drop_zero]
    rw [hdrop] at ht
    have hr : (P.drop i).length = P.length - i := List.length_drop _ _
    rcases Nat.lt_or_ge (P.length - i) sep.length with hcase | hcase
    · -- the occurrence straddles the boundary: a nonempty suffix of `sep`
      -- is a leading part of `idp`, and that suffix contains `c`.
      have hdrops : (P.drop i ++ idp).drop (P.length - i) = idp := by
        rw [← hr, List.drop_left]
      have hsep_side : (sep ++ t).drop (P.length - i) = sep.drop (P.length - i) ++ t := by
        rw [List.drop_append_eq_append_drop]
        have : P.length - i - sep.length = 0 :=
          Nat.sub_eq_zero_of_le (Nat.le_of_lt hcase)
        rw [this, List.drop_zero]
      have : idp = sep.drop (P.length - i) ++ t := by
        rw [← hdrops, ht, hsep_side]
      have hcin : c ∈ sep.drop (P.length - i) :=
        hc1 _ hcase (by omega)
      exact hid (this ▸ List.mem_append_left _ hcin)
    · -- the occurrence lies wholly inside `P`, contradicting `hP`
      have htake : (P.drop i ++ idp).take sep.length = (P.drop i).take sep.length := by
        rw [List.take_append_eq_append_take]
        have : sep.length - (P.drop i).length = 0 := by
          rw [hr]; exact Nat.sub_eq_zero_of_le hcase
        rw [this, List.take_zero, List.append_nil]
      have hsep_take : (sep ++ t).take sep.length = sep := by
        rw [List.take_append_eq_append_take]
        simp
      have hfront : (P.drop i).take sep.length = sep := by
        rw [← htake, ht, hsep_take]
      have : litPref sep (P.drop i) = true := by
        refine (litPref_iff _ _).mpr ⟨(P.drop i).drop sep.length, ?_⟩
        conv_lhs => rw [← List.take_append_drop sep.length (P.drop i)]
        rw [hfront]
      rw [hP i hi] at this
      exact Bool.false_ne_true this
  · -- occurrence wholly inside `idp`
    obtain ⟨k, rfl⟩ := Nat.exists_eq_add_of_le hi
    have hdrop : (P ++ idp).drop (P.length + k) = idp.drop k := by
      rw [List.drop_append_eq_append_drop]
      have h1 : P.length + k - P.length = k := by omega
      have h2 : P.drop (P.length + k) = [] :=
        List.drop_eq_nil_of_le (by omega)
      rw [h1, h2, List.nil_append]
    rw [hdrop] at ht
    have : c ∈ idp.drop k := ht ▸ List.mem_append_left _ hc0
    exact hid (List.mem_of_mem_drop this)

theorem splitFirst_none_of_not_mem (sep s : List Char) (c : Char)
    (hc : c ∈ sep) (hs : c ∉ s) : splitFirst sep s = none := by
  apply splitFirst_eq_none
  intro i
  by_contra hocc
  rw [Bool.not_eq_false] at hocc
  obtain ⟨t, ht⟩ := (litPref_iff _ _).mp hocc
  have : c ∈ s.drop i := ht ▸ List.mem_append_left _ hc
  exact hs (List.mem_of_mem_drop this)

theorem upToFirstOcc_of_not_mem (sep s : List Char) (c : Char)
    (hc : c ∈ sep) (hs : c ∉ s) : upToFirstOcc sep s = s := by
  unfold upToFirstOcc
  rw [splitFirst_none_of_not_mem sep s c hc hs]

/-! ## Identifier and URL normalizer (`extract_video_id`, `normalize_watch_url`) -/

/-- `extract_video_id` from `ingest_linear.py`: recognizes, in this order,
`youtu.be/`, `watch?v=` and `/embed/` URL shapes; `none` models the
`invalid youtube url` exception.  Each branch is Python
`url.split(marker)[1].split(stop)[0]`. -/
def extract_video_id (url : List Char) : Option (List Char) :=
  match splitFirst "youtu.be/".data url with
  | some p => some (upToFirstOcc "?".data (upToFirstOcc "youtu.be/".data p.2))
  | none =>
    match splitFirst "watch?v=".data url with
    | some p => some (upToFirstOcc "&".data (upToFirstOcc "watch?v=".data p.2))
    | none =>
      match splitFirst "/embed/".data url with
      | some p => some (upToFirstOcc "?".data (upToFirstOcc "/embed/".data p.2))
      | none => none

/-- `normalize_watch_url` from `ingest_linear.py`. -/
def normalize_watch_url (videoId : List Char) : List Char :=
  "https://www.youtube.com/watch?v=".data ++ videoId

/-- A platform video id: alphanumeric characters plus `-` and `_`
(the spec's "platform-defined alphanumeric token"). -/
def cleanToken (v : List Char) : Bool :=
  v.all (fun c => c.isAlphanum || c == '-' || c == '_')

theorem clean_not_mem (v : List Char) (hv : cleanToken v = true) (c : Char)
    (hc : (c.isAlphanum || c == '-' || c == '_') = false) : c ∉ v := by
  intro hmem
  have := (List.all_eq_true.mp hv) c hmem
  rw [hc] at this
  exact Bool.false_ne_true this

theorem extract_video_id_watch (v : List Char) (hv : cleanToken v = true) :
    extract_video_id (normalize_watch_url v) = some v := by
  have hslash : '/' ∉ v := clean_not_mem v hv '/' (by decide)
  have hq : '?' ∉ v := clean_not_mem v hv '?' (by decide)
  have hamp : '&' ∉ v := clean_not_mem v hv '&' (by decide)
  have h1 : splitFirst "youtu.be/".data ("https://www.youtube.com/watch?v=".data ++ v) = none := by
    apply splitFirst_append_none _ _ _ '/'
    · decide
    · decide
    · decide
    · exact hslash
  have h2 : splitFirst "watch?v=".data
      ("https://www.youtube.com/".data ++ ("watch?v=".data ++ v)) =
      some ("https://www.youtube.com/".data, v) := by
    apply splitFirst_boundary
    · decide
    · decide
  have hsplit : "https://www.youtube.com/watch?v=".data =
      "https://www.youtube.com/".data ++ "watch?v=".data := by decide
  unfold extract_video_id normalize_watch_url
  rw [h1, hsplit, List.append_assoc, h2]
  show some (upToFirstOcc "&".data (upToFirstOcc "watch?v=".data v)) = some v
  rw [upToFirstOcc_of_not_mem "watch?v=".data v '?' (by decide) hq,
    upToFirstOcc_of_not_mem "&".data v '&' (by decide) hamp]

theorem extract_video_id_short (v : List Char) (hv : cleanToken v = true) :
    extract_video_id ("https://youtu.be/".data ++ v) = some v := by
  have hslash : '/' ∉ v := clean_not_mem v hv '/' (by decide)
  have hq : '?' ∉ v := clean_not_mem v hv '?' (by decide)
  have h1 : splitFirst "youtu.be/".data ("https://".data ++ ("youtu.be/".data ++ v)) =
      some ("https://".data, v) := by
    apply splitFirst_boundary
    · decide
    · decide
  have hsplit : "https://youtu.be/".data = "https://".data ++ "youtu.be/".data := by decide
  unfold extract_video_id
  rw [hsplit, List.append_assoc, h1]
  show some (upToFirstOcc "?".data (upToFirstOcc "youtu.be/".data v)) = some v
  rw [upToFirstOcc_of_not_mem "youtu.be/".data v '/' (by decide) hslash,
    upToFirstOcc_of_not_mem "?".data v '?' (by decide) hq]

theorem extract_video_id_embed (v : List Char) (hv : cleanToken v = true) :
    extract_video_id ("https://www.youtube.com/embed/".data ++ v) = some v := by
  have hslash : '/' ∉ v := clean_not_mem v hv '/' (by decide)
  have hq : '?' ∉ v := clean_not_mem v hv '?' (by decide)
  have heq : '=' ∉ v := clean_not_mem v hv '=' (by decide)
  have h1 : splitFirst "youtu.be/".data ("https://www.youtube.com/embed/".data ++ v) = none := by
    apply splitFirst_append_none _ _ _ '/'
    · decide
    · decide
    · decide
    · exact hslash
  have h2 : splitFirst "watch?v=".data ("https://www.youtube.com/embed/".data ++ v) = none := by
    apply splitFirst_append_none _ _ _ '='
    · decide
    · decide
    · decide
    · exact heq
  have h3 : splitFirst "/embed/".data
      ("https://www.youtube.com".data ++ ("/embed/".data ++ v)) =
      some ("https://www.youtube.com".data, v) := by
    apply splitFirst_boundary
    · decide
    · decide
  have hsplit : "https://www.youtube.com/embed/".data =
      "https://www.youtube.com".data ++ "/embed/".data := by decide
  unfold extract_video_id
  rw [h1, h2, hsplit, List.append_assoc, h3]
  show some (upToFirstOcc "?".data (upToFirstOcc "/embed/".data v)) = some v
  rw [upToFirstOcc_of_not_mem "/embed/".data v '/' (by decide) hslash,
    upToFirstOcc_of_not_mem "?".data v '?' (by decide) hq]

theorem extract_video_id_live (v : List Char) (hv : cleanToken v = true) :
    extract_video_id ("https://www.youtube.com/live/".data ++ v) = none := by
  have hslash : '/' ∉ v := clean_not_mem v hv '/' (by decide)
  have heq : '=' ∉ v := clean_not_mem v hv '=' (by decide)
  have h1 : splitFirst "youtu.be/".data ("https://www.youtube.com/live/".data ++ v) = none := by
    apply splitFirst_append_none _ _ _ '/'
    · decide
    · decide
    · decide
    · exact hslash
  have h2 : splitFirst "watch?v=".data ("https://www.youtube.com/live/".data ++ v) = none := by
    apply splitFirst_append_none _ _ _ '='
    · decide
    · decide
    · decide
    · exact heq
  have h3 : splitFirst "/embed/".data ("https://www.youtube.com/live/".data ++ v) = none := by
    apply splitFirst_append_none _ _ _ '/'
    · decide
    · decide
    · decide
    · exact hslash
  unfold extract_video_id
  rw [h1, h2, h3]

/-! ## ISO-8601 duration parsing (`PT(\d+H)?(\d+M)?(\d+S)?`) -/

def digitVal (c : Char) : Nat := c.toNat - 48

def digitsToNat (ds : List Char) : Nat :=
  ds.foldl (fun a c => a * 10 + digitVal c) 0

/-- Maximal leading digit run of `s` together with the remainder. -/
def isoDigits : List Char → List Char × List Char
  | [] => ([], [])
  | c :: r =>
    if c.isDigit then
      let p := isoDigits r
      (c :: p.1, p.2)
    else ([], c :: r)

theorem isoDigits_append : ∀ s : List Char, (isoDigits s).1 ++ (isoDigits s).2 = s := by
  intro s
  induction s with
  | nil => rfl
  | cons c r ih =>
    by_cases h : c.isDigit
    · simp [isoDigits, h, ih]
    · simp [isoDigits, h]

/-- One optional group `(?:(\d+)L)?` of the ISO-8601 regex: consume a
nonempty digit run followed by `letter`, or consume nothing. -/
def isoGroup (letter : Char) (s : List Char) : Nat × List Char :=
  match isoDigits s with
  | (ds, c :: r) => if ds ≠ [] ∧ c = letter then (digitsToNat ds, r) else (0, s)
  | (_, []) => (0, s)

/-- Full match of `PT(?:(\d+)H)?(?:(\d+)M)?(?:(\d+)S)?` returning the
total number of seconds (missing groups count as 0). -/
def parseISO (s : List Char) : Option Nat :=
  match s with
  | c1 :: c2 :: rest =>
    if c1 = 'P' ∧ c2 = 'T' then
      let g1 := isoGroup 'H' rest
      let g2 := isoGroup 'M' g1.2
      let g3 := isoGroup 'S' g2.2
      if g3.2 = [] then some (g1.1 * 3600 + g2.1 * 60 + g3.1) else none
    else none
  | _ => none

/-- `parse_iso8601_duration` from `youtube_duration.py`: returns the
total — including zero — whenever the pattern fully matches, else `None`. -/
def parse_iso8601_duration (s : List Char) : Option Nat := parseISO s

/-- `_parse_iso8601_duration_to_seconds` from `ingest_linear.py`: strips
the input first and maps a non-positive total to `None`. -/
def _parse_iso8601_duration_to_seconds (s : List Char) : Option Nat :=
  match parseISO (stripChars s) with
  | some t => if 0 < t then some t else none
  | none => none

theorem dropWhile_eq_self_of_head (l : List Char)
    (h : ∀ c, l.head? = some c → isSpaceC c = false) : l.dropWhile isSpaceC = l := by
  cases l with
  | nil => rfl
  | cons c r => simp [List.dropWhile_cons, h c rfl]

theorem stripChars_eq_self (s : List Char)
    (h1 : ∀ c, s.head? = some c → isSpaceC c = false)
    (h2 : ∀ c, s.reverse.head? = some c → isSpaceC c = false) :
    stripChars s = s := by
  unfold stripChars
  rw [dropWhile_eq_self_of_head s h1, dropWhile_eq_self_of_head s.reverse h2,
    List.reverse_reverse]

theorem isoGroup_decomp (letter : Char) (s : List Char) :
    (isoGroup letter s).2 = s ∨
    ∃ ds, s = ds ++ letter :: (isoGroup letter s).2 := by
  obtain ⟨ds, rest, hE⟩ : ∃ ds rest, isoDigits s = (ds, rest) := ⟨_, _, rfl⟩
  have hsd : ds ++ rest = s := by rw [← isoDigits_append s, hE]
  cases rest with
  | nil =>
    left
    simp [isoGroup, hE]
  | cons c r =>
    by_cases hcond : ds ≠ [] ∧ c = letter
    · right
      have hgr : isoGroup letter s = (digitsToNat ds, r) := by
        simp [isoGroup, hE, hcond]
      rw [hgr]
      exact ⟨ds, by rw [← hsd, hcond.2]⟩
    · left
      simp [isoGroup, hE, hcond]

/-- A list is empty or ends in a non-whitespace character. -/
def endsNonSpace (l : List Char) : Prop :=
  l = [] ∨ ∃ Y L, l = Y ++ [L] ∧ isSpaceC L = false

theorem endsNonSpace_extend (ds : List Char) (letter : Char) (r : List Char)
    (hl : isSpaceC letter = false) (hr : endsNonSpace r) :
    endsNonSpace (ds ++ letter :: r) := by
  rcases hr with rfl | ⟨Y, L, rfl, hL⟩
  · exact Or.inr ⟨ds, letter, rfl, hl⟩
  · refine Or.inr ⟨ds ++ letter :: Y, L, ?_, hL⟩
    simp

/-- A string accepted by the ISO-8601 duration pattern has no leading or
trailing whitespace, hence `strip` leaves it unchanged. -/
theorem parseISO_strip (s : List Char) (n : Nat) (h : parseISO s = some n) :
    stripChars s = s := by
  cases s with
  | nil => simp [parseISO] at h
  | cons c1 s1 =>
    cases s1 with
    | nil => simp [parseISO] at h
    | cons c2 rest =>
      by_cases hPT : c1 = 'P' ∧ c2 = 'T'
      · obtain ⟨rfl, rfl⟩ := hPT
        have hend : (isoGroup 'S' (isoGroup 'M' (isoGroup 'H' rest).2).2).2 = [] := by
          by_contra hne
          simp [parseISO, hne] at h
        have hr2 : endsNonSpace (isoGroup 'M' (isoGroup 'H' rest).2).2 := by
          rcases isoGroup_decomp 'S' (isoGroup 'M' (isoGroup 'H' rest).2).2 with heq | ⟨ds, hds⟩
          · rw [← heq, hend]; exact Or.inl rfl
          · rw [hds, hend]
            exact endsNonSpace_extend ds 'S' [] (by decide) (Or.inl rfl)
        have hr1 : endsNonSpace (isoGroup 'H' rest).2 := by
          rcases isoGroup_decomp 'M' (isoGroup 'H' rest).2 with heq | ⟨ds, hds⟩
          · rw [← heq]; exact hr2
          · rw [hds]
            exact endsNonSpace_extend ds 'M' _ (by decide) hr2
        have hrest : endsNonSpace rest := by
          rcases isoGroup_decomp 'H' rest with heq | ⟨ds, hds⟩
          · rw [← heq]; exact hr1
          · rw [hds]
            exact endsNonSpace_extend ds 'H' _ (by decide) hr1
        apply stripChars_eq_self
        · intro c hc
          simp only [List.head?_cons, Option.some.injEq] at hc
          rw [← hc]
          decide
        · intro c hc
          rcases hrest with rfl | ⟨Y, L, hYL, hL⟩
          · simp at hc
            rw [← hc]
            decide
          · rw [hYL] at hc
            have : (('P' :: 'T' :: (Y ++ [L])).reverse).head? = some L := by
              simp
            rw [this] at hc
            cases hc
            exact hL
      · simp [parseISO, hPT] at h

/-- C10: whenever the legacy parser `parse_iso8601_duration`
(youtube_duration.py) returns a positive total `n`, the pipeline parser
`_parse_iso8601_duration_to_seconds` (ingest_linear.py) returns the same
`n`; whenever the legacy parser returns 0 (e.g. on "PT" or "PT0S"), the
pipeline parser returns no result. -/
theorem c10_iso_parsers_refine (s : List Char) (n : Nat)
    (h : parse_iso8601_duration s = some n) :
    (0 < n → _parse_iso8601_duration_to_seconds s = some n) ∧
    (n = 0 → _parse_iso8601_duration_to_seconds s = none) := by
  have hstrip : stripChars s = s := parseISO_strip s n h
  unfold _parse_iso8601_duration_to_seconds
  rw [hstrip]
  unfold parse_iso8601_duration at h
  rw [h]
  constructor
  · intro hpos
    simp [hpos]
  · intro h0
    subst h0
    simp

/-- Witness for C10 at the concrete input "PT1H2M3S" (legacy value 3723). -/
theorem c10_iso_parsers_refine_witness :
    _parse_iso8601_duration_to_seconds "PT1H2M3S".data = some 3723 :=
  (c10_iso_parsers_refine "PT1H2M3S".data 3723 (by decide)).1 (by decide)

/-! ## Python scalar values and `int(...)` coercion -/

/-- A JSON scalar as it reaches the ingest code: an integer or a string. -/
inductive PyVal
  | vi (n : Int)
  | vs (s : List Char)
deriving DecidableEq

/-- Python `str(v)` for the modelled scalars. -/
def pyStr : PyVal → List Char
  | .vi n => (toString n).data
  | .vs s => s

/-- Digit-run loop of Python `int(str)`: decimal digits, allowing single
interior underscores between digits. -/
def digitsLoop : Nat → List Char → Option Nat
  | acc, [] => some acc
  | acc, c :: r =>
    if c.isDigit then digitsLoop (acc * 10 + digitVal c) r
    else if c == '_' then
      match r with
      | c2 :: r2 => if c2.isDigit then digitsLoop (acc * 10 + digitVal c2) r2 else none
      | [] => none
    else none

def parseIntDigits : List Char → Option Nat
  | [] => none
  | c :: r => if c.isDigit then digitsLoop (digitVal c) r else none

/-- Python `int(s)` applied to a string: surrounding whitespace is
ignored, one optional sign, then a digit run. -/
def parseIntStr (s : List Char) : Option Int :=
  match stripChars s with
  | '+' :: r => (parseIntDigits r).map (fun n => (n : Int))
  | '-' :: r => (parseIntDigits r).map (fun n => -(n : Int))
  | t => (parseIntDigits t).map (fun n => (n : Int))

/-- Python `int(p)` on a JSON scalar (integers pass through, strings are
parsed). -/
def pyInt : PyVal → Option Int
  | .vi n => some n
  | .vs s => parseIntStr s

/-- `_safe_int` from `ingest_linear.py`: `int(str(v).strip())`, `None` on
failure (also for `v is None`, since `int("None")` fails). -/
def _safe_int : Option PyVal → Option Int
  | none => none
  | some v => parseIntStr (stripChars (pyStr v))

/-! ## Regex search over the scraped HTML -/

/-- `re.search` made concrete: try a matcher at every position of the
text, leftmost success wins. -/
def searchO {α : Type} (tryAt : List Char → Option α) : List Char → Option α
  | [] => tryAt []
  | c :: r =>
    match tryAt (c :: r) with
    | some v => some v
    | none => searchO tryAt r

def dropLit (lit s : List Char) : Option (List Char) :=
  if litPref lit s then some (s.drop lit.length) else none

/-- Matcher for `lit(\d+)"`: the literal, a nonempty digit run, a closing
quote — the quoted `lengthSeconds` / `approxDurationMs` patterns. -/
def tryQuotedNum (lit s : List Char) : Option Nat :=
  match dropLit lit s with
  | none => none
  | some r =>
    let ds := r.takeWhile Char.isDigit
    if ds = [] then none
    else
      match r.drop ds.length with
      | '"' :: _ => some (digitsToNat ds)
      | _ => none

/-- Matcher for `lit\s*(\d+)` (the unquoted numeric `lengthSeconds`). -/
def tryNumAfterWs (lit s : List Char) : Option Nat :=
  match dropLit lit s with
  | none => none
  | some r =>
    let r2 := r.dropWhile isSpaceC
    let ds := r2.takeWhile Char.isDigit
    if ds = [] then none else some (digitsToNat ds)

/-- Matcher for `lit(PT[^"]+)"` where `lit` itself ends in `PT`; returns
the captured group including the leading `PT`. -/
def tryPTQuoted (lit s : List Char) : Option (List Char) :=
  match dropLit lit s with
  | none => none
  | some r =>
    let cs := r.takeWhile (fun c => c != '"')
    if cs = [] then none
    else
      match r.drop cs.length with
      | '"' :: _ => some ('P' :: 'T' :: cs)
      | _ => none

/-- Matcher for `itemprop="duration"\s+content="(PT[^"]+)"` from
`youtube_duration.py`. -/
def tryItemprop (s : List Char) : Option (List Char) :=
  match dropLit "itemprop=\"duration\"".data s with
  | none => none
  | some r =>
    let ws := r.takeWhile isSpaceC
    if ws = [] then none
    else tryPTQuoted "content=\"PT".data (r.drop ws.length)

/-! ## Duration extraction -/

/-- Structured player response: the two fields `extract_duration` reads
(`videoDetails.lengthSeconds` and
`microformat.playerMicroformatRenderer.lengthSeconds`). -/
structure PlayerResponse where
  videoDetailsLengthSeconds : Option PyVal
  microformatLengthSeconds : Option PyVal
deriving DecidableEq

def vdLength (pr : Option PlayerResponse) : Option PyVal :=
  match pr with
  | some p => p.videoDetailsLengthSeconds
  | none => none

def mfLength (pr : Option PlayerResponse) : Option PyVal :=
  match pr with
  | some p => p.microformatLengthSeconds
  | none => none

/-- Strategy 6 of `extract_duration`: schema-style
`"duration":"(PT[^"]+)"` parsed by the pipeline ISO parser; Python's
`if dur:` truthiness is the `0 < d` guard. -/
def durTail6 (html : List Char) : Option Int :=
  match searchO (tryPTQuoted "\"duration\":\"PT".data) html with
  | none => none
  | some g =>
    match _parse_iso8601_duration_to_seconds g with
    | some d => if 0 < d then some (d : Int) else none
    | none => none

/-- Strategy 5 of `extract_duration`: microformat `lengthSeconds`. -/
def durTail5 (html : List Char) (pr : Option PlayerResponse) : Option Int :=
  match _safe_int (mfLength pr) with
  | some d => if 0 < d then some d else durTail6 html
  | none => durTail6 html

/-- Strategy 4 of `extract_duration`: `videoDetails.lengthSeconds`. -/
def durTail4 (html : List Char) (pr : Option PlayerResponse) : Option Int :=
  match _safe_int (vdLength pr) with
  | some d => if 0 < d then some d else durTail5 html pr
  | none => durTail5 html pr

/-- `extract_duration` from `ingest_linear.py`: the six-strategy fallback
chain.  Strategies 1 and 2 return the matched integer unconditionally;
strategy 3 returns `ms // 1000` whenever `ms > 0`; strategies 4-6 require
a positive value. -/
def extract_duration (html : List Char) (pr : Option PlayerResponse) : Option Int :=
  match searchO (tryQuotedNum "\"lengthSeconds\":\"".data) html with
  | some n => some (n : Int)
  | none =>
  match searchO (tryNumAfterWs "\"lengthSeconds\":".data) html with
  | some n => some (n : Int)
  | none =>
  match searchO (tryQuotedNum "\"approxDurationMs\":\"".data) html with
  | some ms => if 0 < ms then some ((ms / 1000 : Nat) : Int) else durTail4 html pr
  | none => durTail4 html pr

/-- `extrair_duracao_segundos` from `youtube_duration.py`: quoted
`lengthSeconds`, then `itemprop` duration, then JSON-LD duration; the two
ISO branches return the legacy parser's result directly (including `None`
or 0). -/
def extrair_duracao_segundos (html : List Char) : Option Int :=
  match searchO (tryQuotedNum "\"lengthSeconds\":\"".data) html with
  | some n => some (n : Int)
  | none =>
  match searchO tryItemprop html with
  | some g => (parse_iso8601_duration g).map (fun n => (n : Int))
  | none =>
  match searchO (tryPTQuoted "\"duration\":\"PT".data) html with
  | some g => (parse_iso8601_duration g).map (fun n => (n : Int))
  | none => none

/-- Counterexample for C2: (a) HTML containing only
`itemprop="duration" content="PT1H2M3S"` yields no duration at all from
the six-strategy `extract_duration` (the claim says it yields 3723 —
that marker is only recognized by the legacy extractor); (b) a
`"lengthSeconds":"0"` match — not a positive integer — preempts a later
schema ISO string worth 3723, so the chain returns 0, not 3723. -/
theorem c2_counterexample :
    extract_duration "itemprop=\"duration\" content=\"PT1H2M3S\"".data none = none ∧
    extract_duration "\"lengthSeconds\":\"0\" \"duration\":\"PT1H2M3S\"".data none = some 0 ∧
    extrair_duracao_segundos "\"lengthSeconds\":\"0\" \"duration\":\"PT1H2M3S\"".data = some 0 := by
  refine ⟨by decide, by decide, by decide⟩

/-- C2 (amended): `extract_duration` tries its strategies in the stated
fixed order, but strategies 1 and 2 return the matched integer even when
it is 0, and strategy 3 returns `ms // 1000` for any `ms > 0` even when
the quotient is 0; only strategies 4-6 insist on a positive value.  The
`itemprop` marker is recognized only by the legacy
`extrair_duracao_segundos` (which yields 3723 for it), while
`extract_duration` yields nothing for that HTML.  The concrete claims
that do hold: quoted `"lengthSeconds":"3661"` yields 3661 (in both
extractors), a lone schema ISO string yields 3723, and each later
strategy fires when the earlier ones are absent. -/
theorem c2_duration_chain_amended :
    extract_duration "\"lengthSeconds\":\"3661\"".data none = some 3661 ∧
    extrair_duracao_segundos "\"lengthSeconds\":\"3661\"".data = some 3661 ∧
    extract_duration "itemprop=\"duration\" content=\"PT1H2M3S\"".data none = none ∧
    extrair_duracao_segundos "itemprop=\"duration\" content=\"PT1H2M3S\"".data = some 3723 ∧
    extract_duration "\"duration\":\"PT1H2M3S\"".data none = some 3723 ∧
    extract_duration "\"lengthSeconds\": 77".data none = some 77 ∧
    extract_duration "\"approxDurationMs\":\"12345\"".data none = some 12 ∧
    extract_duration "\"approxDurationMs\":\"500\"".data none = some 0 ∧
    extract_duration "".data (some ⟨some (.vs "250".data), none⟩) = some 250 ∧
    extract_duration "".data (some ⟨some (.vs "0".data), some (.vi 99)⟩) = some 99 ∧
    extract_duration "no markers here".data none = none ∧
    extract_duration "\"lengthSeconds\":\"0\" \"duration\":\"PT1H2M3S\"".data none = some 0 := by
  repeat constructor <;> decide

/-! ## Channel items and position allocation -/

/-- A catalog channel item as the ingest code reads it: an optional
`url` string and an optional `position` scalar. -/
structure Item where
  url : Option (List Char)
  position : Option PyVal
deriving DecidableEq

/-- The positions collected by `get_next_position`'s loop: items without
a `position`, or whose position `int(...)` rejects, are skipped. -/
def parsedPositions (items : List Item) : List Int :=
  items.filterMap (fun it => it.position.bind pyInt)

/-- Python `max` over a nonempty list, seeded with its first element. -/
def listMaxI : Int → List Int → Int
  | a, [] => a
  | a, x :: r => listMaxI (max a x) r

/-- `get_next_position` from `ingest_linear.py`, with the items already
fetched: 1 for an empty list; otherwise max parseable position + 1;
`len(items) + 1` when no position parses. -/
def get_next_position (items : List Item) : Int :=
  if items = [] then 1
  else
    match parsedPositions items with
    | [] => (items.length : Int) + 1
    | p :: ps => listMaxI p ps + 1

theorem listMaxI_mem : ∀ (l : List Int) (a : Int), listMaxI a l = a ∨ listMaxI a l ∈ l := by
  intro l
  induction l with
  | nil => intro a; exact Or.inl rfl
  | cons x r ih =>
    intro a
    show listMaxI (max a x) r = a ∨ listMaxI (max a x) r ∈ x :: r
    rcases ih (max a x) with h | h
    · rcases max_choice a x with hm | hm
      · exact Or.inl (by rw [h, hm])
      · right
        rw [h, hm]
        exact List.mem_cons_self x r
    · exact Or.inr (List.mem_cons_of_mem x h)

theorem le_listMaxI : ∀ (l : List Int) (a : Int),
    a ≤ listMaxI a l ∧ ∀ x ∈ l, x ≤ listMaxI a l := by
  intro l
  induction l with
  | nil =>
    intro a
    refine ⟨le_refl a, ?_⟩
    intro x hx
    cases hx
  | cons y r ih =>
    intro a
    obtain ⟨h1, h2⟩ := ih (max a y)
    refine ⟨le_trans (le_max_left a y) h1, ?_⟩
    intro x hx
    rcases List.mem_cons.mp hx with rfl | hx
    · exact le_trans (le_max_right a x) h1
    · exact h2 x hx

/-- C6: `get_next_position` returns 1 on an empty item list; otherwise
the maximum parseable numeric position plus 1, ignoring unparseable
positions; `count(items) + 1` when no position parses — including the
three concrete examples of the claim. -/
theorem c6_next_position (items : List Item) :
    (items = [] → get_next_position items = 1) ∧
    (items ≠ [] → parsedPositions items = [] →
      get_next_position items = (items.length : Int) + 1) ∧
    (∀ m : Int, m ∈ parsedPositions items →
      (∀ p ∈ parsedPositions items, p ≤ m) → get_next_position items = m + 1) ∧
    get_next_position [] = 1 ∧
    get_next_position [⟨none, some (.vi 5)⟩, ⟨none, some (.vs "bad".data)⟩] = 6 ∧
    get_next_position [⟨none, some (.vs "bad".data)⟩] = 2 := by
  refine ⟨?_, ?_, ?_, by decide, by decide, by decide⟩
  · intro h
    rw [h]
    decide
  · intro hne hpp
    unfold get_next_position
    rw [if_neg hne, hpp]
  · intro m hm hmax
    have hne : items ≠ [] := by
      intro h
      rw [h] at hm
      cases hm
    unfold get_next_position
    rw [if_neg hne]
    cases hpp : parsedPositions items with
    | nil =>
      rw [hpp] at hm
      cases hm
    | cons p ps =>
      rw [hpp] at hm hmax
      have hle : listMaxI p ps ≤ m := by
        rcases listMaxI_mem ps p with h | h
        · rw [h]
          exact hmax p (List.mem_cons_self p ps)
        · exact hmax _ (List.mem_cons_of_mem p h)
      have hge : m ≤ listMaxI p ps := by
        obtain ⟨h1, h2⟩ := le_listMaxI ps p
        rcases List.mem_cons.mp hm with rfl | hmem
        · exact h1
        · exact h2 m hmem
      show listMaxI p ps + 1 = m + 1
      rw [le_antisymm hle hge]

/-- Witness for C6: the maximal-parseable-position clause applied at the
claim's own example. -/
theorem c6_next_position_witness :
    get_next_position [⟨none, some (.vi 5)⟩, ⟨none, some (.vs "bad".data)⟩] = 5 + 1 :=
  (c6_next_position _).2.2.1 5 (by decide) (by decide)

/-! ## Duplicate detection (`channel_has_video`) -/

/-- One iteration of `channel_has_video`'s loop: strip the item's url,
skip it when empty, compare extracted canonical ids; if id extraction
raises, compare the raw url with the candidate's canonical watch URL. -/
def itemMatches (videoId : List Char) (it : Item) : Bool :=
  let u := stripChars (it.url.getD [])
  if u = [] then false
  else
    match extract_video_id u with
    | some v => v == videoId
    | none => u == normalize_watch_url videoId

/-- `channel_has_video` from `ingest_linear.py`. -/
def channel_has_video (videoId : List Char) (items : List Item) : Bool :=
  items.any (itemMatches videoId)

theorem channel_has_video_append (videoId : List Char) (items extra : List Item)
    (h : channel_has_video videoId items = true) :
    channel_has_video videoId (items ++ extra) = true := by
  unfold channel_has_video at h ⊢
  rw [List.any_append, h, Bool.true_or]

theorem clean_not_space (v : List Char) (hv : cleanToken v = true) :
    ∀ c ∈ v, isSpaceC c = false := by
  intro c hc
  have hp := (List.all_eq_true.mp hv) c hc
  by_contra h
  rw [Bool.not_eq_false] at h
  simp only [isSpaceC, Bool.or_eq_true, beq_iff_eq] at h
  rcases h with ((((rfl | rfl) | rfl) | rfl) | rfl) | rfl <;> exact absurd hp (by decide)

theorem stripChars_watch (v : List Char) (hv : cleanToken v = true) :
    stripChars (normalize_watch_url v) = normalize_watch_url v := by
  apply stripChars_eq_self
  · intro c hc
    have hhd : (normalize_watch_url v).head? = some 'h' := rfl
    rw [hhd] at hc
    cases hc
    decide
  · intro c hc
    unfold normalize_watch_url at hc
    rcases List.eq_nil_or_concat v with rfl | ⟨Y, L, rfl⟩
    · have hhd : (("https://www.youtube.com/watch?v=".data ++
          ([] : List Char)).reverse).head? = some '=' := by decide
      rw [hhd] at hc
      cases hc
      decide
    · simp only [List.concat_eq_append] at hv hc
      have hhd : (("https://www.youtube.com/watch?v=".data ++
          (Y ++ [L])).reverse).head? = some L := by simp
      rw [hhd] at hc
      cases hc
      exact clean_not_space _ hv c (by simp)

theorem itemMatches_shadow (v : List Char) (hv : cleanToken v = true) (p : Option PyVal) :
    itemMatches v ⟨some (normalize_watch_url v), p⟩ = true := by
  have hstrip := stripChars_watch v hv
  have hex := extract_video_id_watch v hv
  have hne : normalize_watch_url v ≠ [] := by simp [normalize_watch_url]
  unfold itemMatches
  show (if stripChars (normalize_watch_url v) = [] then false
    else match extract_video_id (stripChars (normalize_watch_url v)) with
      | some w => w == v
      | none => stripChars (normalize_watch_url v) == normalize_watch_url v) = true
  rw [hstrip, if_neg hne, hex]
  simp

theorem channel_has_video_shadow (v : List Char) (hv : cleanToken v = true)
    (items : List Item) (p : Option PyVal) :
    channel_has_video v (items ++ [⟨some (normalize_watch_url v), p⟩]) = true := by
  unfold channel_has_video
  rw [List.any_append]
  simp [itemMatches_shadow v hv p]

/-! ## The batch insert step and the per-channel orchestration loop -/

inductive IRes
  | ierr
  | idup (v : List Char)
  | iok (v : List Char)
deriving DecidableEq

/-- `insert` from `ingest_linear.py`, as called by the batch loop
(`items_cache` and `next_position` are supplied).  `metaOf` is the
oracle for `retry(fetch_youtube_meta)` (`none` means the fetch raised
after its retries); `postOk` is the oracle for the catalog POST (`false`
means `raise_for_status` raised).  `ierr` models an exception, `idup` a
`False` duplicate-skip return, and `iok` a `True` return — under
`dry_run` the `True` return happens before, and without, any network
write. -/
def insertStep (metaOf : List Char → Option Nat) (postOk : List Char → Nat → Bool)
    (dryRun : Bool) (items : List Item) (pos : Nat) (url : List Char) : IRes :=
  if !(containsSub "youtube".data url || containsSub "youtu.be".data url) then .ierr
  else
    match extract_video_id url with
    | none => .ierr
    | some v =>
      if channel_has_video v items then .idup v
      else
        match metaOf v with
        | none => .ierr
        | some _ => if dryRun then .iok v else if postOk v pos then .iok v else .ierr

/-- Observable per-URL events of the batch loop. -/
inductive Event
  | skipped (v : List Char)
  | wrote (v : List Char) (pos : Nat)
  | dryOk (v : List Char) (pos : Nat)
  | failedStep
  | slept
deriving DecidableEq

/-- Run-scoped per-channel state: the local shadow of the channel's
items and the local position counter. -/
structure BState where
  items : List Item
  pos : Nat
deriving DecidableEq

/-- The shadow entry appended after a successful insert:
`{"url": normalize_watch_url(vid), "position": pos}`. -/
def shadowItem (v : List Char) (pos : Nat) : Item :=
  ⟨some (normalize_watch_url v), some (.vi (pos : Int))⟩

/-- One URL iteration of `ingest_from_json`'s inner loop: the updated
state, the emitted events, and whether the loop aborts (an exception
with `continue_on_error` unset re-raises). -/
def stepRun (metaOf : List Char → Option Nat) (postOk : List Char → Nat → Bool)
    (dryRun delay cont : Bool) (st : BState) (url : List Char) :
    BState × List Event × Bool :=
  match insertStep metaOf postOk dryRun st.items st.pos url with
  | .ierr => (st, [.failedStep], !cont)
  | .idup v => (st, [.skipped v], false)
  | .iok v =>
    (⟨st.items ++ [shadowItem v st.pos], st.pos + 1⟩,
     (if dryRun then Event.dryOk v st.pos else Event.wrote v st.pos) ::
       (if delay then [Event.slept] else []),
     false)

/-- The per-channel URL loop of `ingest_from_json`. -/
def runChannel (metaOf : List Char → Option Nat) (postOk : List Char → Nat → Bool)
    (dryRun delay cont : Bool) : BState → List (List Char) → BState × List Event
  | st, [] => (st, [])
  | st, url :: rest =>
    let r := stepRun metaOf postOk dryRun delay cont st url
    if r.2.2 then (r.1, r.2.1)
    else
      let rr := runChannel metaOf postOk dryRun delay cont r.1 rest
      (rr.1, r.2.1 ++ rr.2)

/-- The successful inserts (video id and position), in order. -/
def insertedOf : List Event → List (List Char × Nat)
  | [] => []
  | .wrote v p :: r => (v, p) :: insertedOf r
  | .dryOk v p :: r => (v, p) :: insertedOf r
  | .skipped _ :: r => insertedOf r
  | .failedStep :: r => insertedOf r
  | .slept :: r => insertedOf r

theorem insertStep_iok (metaOf : List Char → Option Nat) (postOk : List Char → Nat → Bool)
    (dryRun : Bool) (items : List Item) (pos : Nat) (url v : List Char)
    (h : insertStep metaOf postOk dryRun items pos url = .iok v) :
    extract_video_id url = some v ∧ channel_has_video v items = false := by
  unfold insertStep at h
  split at h
  · cases h
  · split at h
    · cases h
    · rename_i w hev
      split at h
      · cases h
      · rename_i hdup
        split at h
        · cases h
        · split at h
          · cases h
            exact ⟨hev, by simpa using hdup⟩
          · split at h
            · cases h
              exact ⟨hev, by simpa using hdup⟩
            · cases h

theorem runChannel_inv (metaOf : List Char → Option Nat) (postOk : List Char → Nat → Bool)
    (dryRun delay cont : Bool) :
    ∀ (urls : List (List Char)) (st : BState),
      urls.all (fun u => match extract_video_id u with
        | some v => cleanToken v
        | none => true) = true →
      (∀ e ∈ insertedOf (runChannel metaOf postOk dryRun delay cont st urls).2,
        st.pos ≤ e.2 ∧ channel_has_video e.1 st.items = false) ∧
      List.Pairwise (fun a b => a.2 < b.2 ∧ a.1 ≠ b.1)
        (insertedOf (runChannel metaOf postOk dryRun delay cont st urls).2) := by
  intro urls
  induction urls with
  | nil =>
    intro st _
    constructor
    · intro e he
      simp [runChannel, insertedOf] at he
    · simp [runChannel, insertedOf]
  | cons url rest ih =>
    intro st hclean
    have hcl_head : (match extract_video_id url with
        | some v => cleanToken v | none => true) = true :=
      List.all_eq_true.mp hclean url (List.mem_cons_self _ _)
    have hcl_rest : rest.all (fun u => match extract_video_id u with
        | some v => cleanToken v | none => true) = true := by
      apply List.all_eq_true.mpr
      intro u hu
      exact List.all_eq_true.mp hclean u (List.mem_cons_of_mem _ hu)
    cases hstep : insertStep metaOf postOk dryRun st.items st.pos url with
    | ierr =>
      cases cont with
      | false =>
        constructor
        · intro e he
          simp [runChannel, stepRun, hstep, insertedOf] at he
        · simp [runChannel, stepRun, hstep, insertedOf]
      | true =>
        obtain ⟨ih1, ih2⟩ := ih st hcl_rest
        constructor
        · intro e he
          apply ih1
          simpa [runChannel, stepRun, hstep, insertedOf] using he
        · simpa [runChannel, stepRun, hstep, insertedOf] using ih2
    | idup w =>
      obtain ⟨ih1, ih2⟩ := ih st hcl_rest
      constructor
      · intro e he
        apply ih1
        simpa [runChannel, stepRun, hstep, insertedOf] using he
      · simpa [runChannel, stepRun, hstep, insertedOf] using ih2
    | iok w =>
      obtain ⟨hex, hnotdup⟩ := insertStep_iok _ _ _ _ _ _ _ hstep
      have hw_clean : cleanToken w = true := by
        rw [hex] at hcl_head
        exact hcl_head
      obtain ⟨ih1, ih2⟩ :=
        ih ⟨st.items ++ [shadowItem w st.pos], st.pos + 1⟩ hcl_rest
      have hshadow : channel_has_video w
          (st.items ++ [shadowItem w st.pos]) = true :=
        channel_has_video_shadow w hw_clean st.items _
      have hins : insertedOf (runChannel metaOf postOk dryRun delay cont st (url :: rest)).2 =
          (w, st.pos) :: insertedOf (runChannel metaOf postOk dryRun delay cont
            ⟨st.items ++ [shadowItem w st.pos], st.pos + 1⟩ rest).2 := by
        cases dryRun <;> cases delay <;>
          simp [runChannel, stepRun, hstep, insertedOf]
      rw [hins]
      constructor
      · intro e he
        rcases List.mem_cons.mp he with rfl | htail
        · exact ⟨le_refl _, hnotdup⟩
        · obtain ⟨hpos, hcv⟩ := ih1 e htail
          refine ⟨Nat.le_of_succ_le hpos, ?_⟩
          by_contra hcontra
          rw [Bool.not_eq_false] at hcontra
          have := channel_has_video_append e.1 st.items [shadowItem w st.pos] hcontra
          rw [hcv] at this
          exact Bool.false_ne_true this
      · rw [List.pairwise_cons]
        refine ⟨?_, ih2⟩
        intro b hb
        obtain ⟨hpos, hcv⟩ := ih1 b hb
        refine ⟨Nat.lt_of_succ_le hpos, ?_⟩
        intro heq
        rw [← heq] at hcv
        rw [hshadow] at hcv
        exact Bool.false_ne_true hcv.symm

/-- C1: within one per-channel run of the batch orchestration loop
(`ingest_from_json`'s inner URL loop), provided each URL's canonical
video id is a platform token: every successful insert uses a position
strictly greater than all earlier successful inserts of the run, no
video id is inserted twice (the run-scoped shadow, updated after each
insert, catches repeats in any recognized URL shape), and no id already
present in the channel's item list at the start of the run is ever
inserted. -/
theorem c1_positions_and_dedup (metaOf : List Char → Option Nat)
    (postOk : List Char → Nat → Bool) (dryRun delay cont : Bool)
    (st : BState) (urls : List (List Char))
    (hclean : urls.all (fun u => match extract_video_id u with
      | some v => cleanToken v
      | none => true) = true) :
    List.Pairwise (fun a b => a.2 < b.2)
      (insertedOf (runChannel metaOf postOk dryRun delay cont st urls).2) ∧
    ((insertedOf (runChannel metaOf postOk dryRun delay cont st urls).2).map Prod.fst).Nodup ∧
    ∀ e ∈ insertedOf (runChannel metaOf postOk dryRun delay cont st urls).2,
      channel_has_video e.1 st.items = false := by
  obtain ⟨h1, h2⟩ := runChannel_inv metaOf postOk dryRun delay cont urls st hclean
  refine ⟨h2.imp (fun h => h.1), ?_, fun e he => (h1 e he).2⟩
  exact List.pairwise_map.mpr (h2.imp (fun h => h.2))

/-- Witness for C1: a concrete run over three URLs, the second being a
different-shape duplicate of the first. -/
theorem c1_positions_and_dedup_witness :
    List.Pairwise (fun a b => a.2 < b.2)
      (insertedOf (runChannel (fun _ => some 60) (fun _ _ => true) false true false
        ⟨[], 1⟩ ["https://youtu.be/abc".data,
          "https://www.youtube.com/watch?v=abc".data,
          "https://www.youtube.com/embed/XY9".data]).2) ∧
    ((insertedOf (runChannel (fun _ => some 60) (fun _ _ => true) false true false
        ⟨[], 1⟩ ["https://youtu.be/abc".data,
          "https://www.youtube.com/watch?v=abc".data,
          "https://www.youtube.com/embed/XY9".data]).2).map Prod.fst).Nodup ∧
    ∀ e ∈ insertedOf (runChannel (fun _ => some 60) (fun _ _ => true) false true false
        ⟨[], 1⟩ ["https://youtu.be/abc".data,
          "https://www.youtube.com/watch?v=abc".data,
          "https://www.youtube.com/embed/XY9".data]).2,
      channel_has_video e.1 ([] : List Item) = false :=
  c1_positions_and_dedup (fun _ => some 60) (fun _ _ => true) false true false
    ⟨[], 1⟩ _ (by decide)

/-- C4 (amended): the delay is slept after every item for which `insert`
returned `True` — including `dry_run` items, which skip only the network
write — and is skipped for duplicates and failed items; `dry_run` does
not skip the sleep. -/
theorem c4_sleep_policy (metaOf : List Char → Option Nat) (postOk : List Char → Nat → Bool)
    (dryRun delay cont : Bool) (st : BState) (url : List Char) :
    (Event.slept ∈ (stepRun metaOf postOk dryRun delay cont st url).2.1 ↔
      ((∃ v, insertStep metaOf postOk dryRun st.items st.pos url = .iok v) ∧ delay = true)) ∧
    (dryRun = true →
      ∀ v p, Event.wrote v p ∉ (stepRun metaOf postOk dryRun delay cont st url).2.1) ∧
    (∀ v, insertStep metaOf postOk dryRun st.items st.pos url = .idup v →
      (stepRun metaOf postOk dryRun delay cont st url).2.1 = [Event.skipped v]) := by
  cases hstep : insertStep metaOf postOk dryRun st.items st.pos url with
  | ierr =>
    refine ⟨?_, ?_, ?_⟩
    · simp [stepRun, hstep]
    · intro _ v p
      simp [stepRun, hstep]
    · intro v hv
      cases hv
  | idup w =>
    refine ⟨?_, ?_, ?_⟩
    · simp [stepRun, hstep]
    · intro _ v p
      simp [stepRun, hstep]
    · intro v hv
      cases hv
      simp [stepRun, hstep]
  | iok w =>
    refine ⟨?_, ?_, ?_⟩
    · cases dryRun <;> cases delay <;> simp [stepRun, hstep]
    · intro hdry v p
      subst hdry
      cases delay <;> simp [stepRun, hstep]
    · intro v hv
      cases hv

/-- Witness for C4's amended statement: in a dry run nothing is ever
written to the catalog. -/
theorem c4_sleep_policy_witness :
    Event.wrote "abc".data 1 ∉ (stepRun (fun _ => some 100) (fun _ _ => true)
      true true false ⟨[], 1⟩ "https://youtu.be/abc".data).2.1 :=
  (c4_sleep_policy (fun _ => some 100) (fun _ _ => true) true true false ⟨[], 1⟩
    "https://youtu.be/abc".data).2.1 rfl "abc".data 1

/-- Counterexample for C4: with `dry_run` set and a fresh URL, the batch
loop still sleeps the configured delay — the trace of the run is a
simulated insert followed by a sleep, although nothing was written.  The
claim's "skipped entirely when dry_run is set" is false: the code checks
only `did_insert`, and `insert` returns `True` under `dry_run`. -/
theorem c4_counterexample :
    (runChannel (fun _ => some 100) (fun _ _ => true) true true false ⟨[], 1⟩
      ["https://youtu.be/abc".data]).2 =
      [Event.dryOk "abc".data 1, Event.slept] := by
  decide

/-- Counterexample for C3: a live-shape URL makes `extract_video_id`
raise (`none`) instead of yielding the id `dQw4w9WgXcQ` — the function
has no `live` branch. -/
theorem c3_counterexample :
    extract_video_id "https://www.youtube.com/live/dQw4w9WgXcQ".data = none := by
  decide

/-- C3 (amended): `extract_video_id` recognizes the short-link,
long-form watch and embed-path shapes, returning the embedded video id
for each; every URL containing none of those three markers — in
particular every live-path URL — fails with the invalid-URL error (the
live shape is handled only by the remote service's
`youtube_to_embed`/`to_youtube_embed`). -/
theorem c3_url_shapes_amended (v : List Char) (hv : cleanToken v = true) :
    extract_video_id ("https://youtu.be/".data ++ v) = some v ∧
    extract_video_id ("https://www.youtube.com/watch?v=".data ++ v) = some v ∧
    extract_video_id ("https://www.youtube.com/embed/".data ++ v) = some v ∧
    extract_video_id ("https://www.youtube.com/live/".data ++ v) = none ∧
    (∀ url : List Char, containsSub "youtu.be/".data url = false →
      containsSub "watch?v=".data url = false →
      containsSub "/embed/".data url = false →
      extract_video_id url = none) := by
  refine ⟨extract_video_id_short v hv, extract_video_id_watch v hv,
    extract_video_id_embed v hv, extract_video_id_live v hv, ?_⟩
  intro url h1 h2 h3
  have e1 : splitFirst "youtu.be/".data url = none := by
    cases hsp : splitFirst "youtu.be/".data url with
    | none => rfl
    | some p =>
      unfold containsSub at h1
      rw [hsp] at h1
      exact absurd h1 (by simp)
  have e2 : splitFirst "watch?v=".data url = none := by
    cases hsp : splitFirst "watch?v=".data url with
    | none => rfl
    | some p =>
      unfold containsSub at h2
      rw [hsp] at h2
      exact absurd h2 (by simp)
  have e3 : splitFirst "/embed/".data url = none := by
    cases hsp : splitFirst "/embed/".data url with
    | none => rfl
    | some p =>
      unfold containsSub at h3
      rw [hsp] at h3
      exact absurd h3 (by simp)
  unfold extract_video_id
  rw [e1, e2, e3]

/-- Witness for C3's amended statement: the three shapes at a concrete
video id, and the none-of-these-shapes clause at a concrete non-platform
URL. -/
theorem c3_url_shapes_amended_witness :
    extract_video_id ("https://youtu.be/".data ++ "dQw4w9WgXcQ".data) =
      some "dQw4w9WgXcQ".data ∧
    extract_video_id ("https://www.youtube.com/watch?v=".data ++ "dQw4w9WgXcQ".data) =
      some "dQw4w9WgXcQ".data ∧
    extract_video_id ("https://www.youtube.com/embed/".data ++ "dQw4w9WgXcQ".data) =
      some "dQw4w9WgXcQ".data ∧
    extract_video_id ("https://www.youtube.com/live/".data ++ "dQw4w9WgXcQ".data) = none ∧
    extract_video_id "https://vimeo.com/12345".data = none :=
  ⟨(c3_url_shapes_amended "dQw4w9WgXcQ".data (by decide)).1,
   (c3_url_shapes_amended "dQw4w9WgXcQ".data (by decide)).2.1,
   (c3_url_shapes_amended "dQw4w9WgXcQ".data (by decide)).2.2.1,
   (c3_url_shapes_amended "dQw4w9WgXcQ".data (by decide)).2.2.2.1,
   (c3_url_shapes_amended "dQw4w9WgXcQ".data (by decide)).2.2.2.2
     "https://vimeo.com/12345".data (by decide) (by decide) (by decide)⟩

/-- C5: every recognized URL shape embedding the same platform video id
yields that identical id, and the watch-URL round trip is the identity:
mapping `normalize_watch_url` over
`extract_video_id (normalize_watch_url id)` gives back
`normalize_watch_url id`. -/
theorem c5_id_extraction_roundtrip (v : List Char) (hv : cleanToken v = true) :
    (extract_video_id ("https://youtu.be/".data ++ v) = some v ∧
     extract_video_id (normalize_watch_url v) = some v ∧
     extract_video_id ("https://www.youtube.com/embed/".data ++ v) = some v) ∧
    (extract_video_id (normalize_watch_url v)).map normalize_watch_url =
      some (normalize_watch_url v) := by
  refine ⟨⟨extract_video_id_short v hv, extract_video_id_watch v hv,
    extract_video_id_embed v hv⟩, ?_⟩
  rw [extract_video_id_watch v hv]
  rfl

/-- Witness for C5 at a concrete video id. -/
theorem c5_id_extraction_roundtrip_witness :
    (extract_video_id (normalize_watch_url "dQw4w9WgXcQ".data)).map normalize_watch_url =
      some (normalize_watch_url "dQw4w9WgXcQ".data) :=
  (c5_id_extraction_roundtrip "dQw4w9WgXcQ".data (by decide)).2

/-! ## Trailing-comma-tolerant JSON loading -/

/-- The lookahead of `_strip_trailing_commas_json`: skip the characters
of `" \t\r\n"` and test for a closing `]` or `}`. -/
def closeAfterWs (r : List Char) : Bool :=
  match r.dropWhile (fun c => c == ' ' || c == '\t' || c == '\r' || c == '\n') with
  | c :: _ => c == ']' || c == '\x7d'
  | [] => false

/-- The scan of `_strip_trailing_commas_json` from `ingest_linear.py`,
with the `in_str` and `esc` flags explicit: drops a comma outside string
literals whenever only whitespace separates it from a closing `]`/`}`,
and copies everything else (string contents verbatim). -/
def stripCommas : Bool → Bool → List Char → List Char
  | _, _, [] => []
  | true, true, c :: r => c :: stripCommas true false r
  | true, false, c :: r =>
    if c == '\\' then c :: stripCommas true true r
    else if c == '"' then c :: stripCommas false false r
    else c :: stripCommas true false r
  | false, _, c :: r =>
    if c == '"' then c :: stripCommas true false r
    else if c == ',' then
      if closeAfterWs r then stripCommas false false r
      else c :: stripCommas false false r
    else c :: stripCommas false false r

/-- `_strip_trailing_commas_json`: the scan started outside a string. -/
def _strip_trailing_commas_json (s : List Char) : List Char :=
  stripCommas false false s

/-- C8: the trailing-comma scan maps the claim's example document to
exactly the text of the same document without the trailing commas (so
`json.loads` in `load_channel_list` parses the two identically), is the
identity on the comma-free version, and leaves a comma inside a string
literal untouched while still dropping the trailing comma outside it. -/
theorem c8_trailing_commas :
    _strip_trailing_commas_json
        "\x7b\"channels\":[\x7b\"name\":\"A\",\"urls\":[\"u1\",],\x7d,]\x7d".data =
      "\x7b\"channels\":[\x7b\"name\":\"A\",\"urls\":[\"u1\"]\x7d]\x7d".data ∧
    _strip_trailing_commas_json
        "\x7b\"channels\":[\x7b\"name\":\"A\",\"urls\":[\"u1\"]\x7d]\x7d".data =
      "\x7b\"channels\":[\x7b\"name\":\"A\",\"urls\":[\"u1\"]\x7d]\x7d".data ∧
    _strip_trailing_commas_json "\x7b\"a\":\"1,]\",\x7d".data =
      "\x7b\"a\":\"1,]\"\x7d".data := by
  refine ⟨by decide, by decide, by decide⟩

/-! ## Catalog snapshot (`get_channel_items`) -/

/-- `_norm_id` from `ingest_linear.py`: `None`/empty stays `None`,
purely-numeric identifiers are canonicalized through an integer round
trip ("003" becomes "3"), everything else passes through stripped. -/
def _norm_id (v : Option PyVal) : Option (List Char) :=
  match v with
  | none => none
  | some v =>
    let s := stripChars (pyStr v)
    if s = [] then none
    else if s.all Char.isDigit then some (Nat.repr (digitsToNat s)).data
    else some s

/-- One channel of the `/api/edge/channels` payload, restricted to the
fields `get_channel_items` reads. -/
structure ChannelP where
  id : Option PyVal
  channel_number : Option PyVal
  channel_id : Option PyVal
  items : Option (List Item)
deriving DecidableEq

structure ProviderP where
  channels : List ChannelP
deriving DecidableEq

/-- The outcome of the catalog listing request. -/
inductive Fetch
  | netErr
  | notOk
  | badJson
  | payload (providers : List ProviderP)
deriving DecidableEq

/-- The tolerant id-variant test of `get_channel_items`'s inner loop:
`target in {norm(id), norm(channel_number), norm(channel_id)}`. -/
def matchesTarget (t : Option (List Char)) (ch : ChannelP) : Bool :=
  t == _norm_id ch.id || t == _norm_id ch.channel_number || t == _norm_id ch.channel_id

def findChannel (t : Option (List Char)) : List ProviderP → Option ChannelP
  | [] => none
  | p :: ps =>
    match p.channels.find? (matchesTarget t) with
    | some ch => some ch
    | none => findChannel t ps

/-- `get_channel_items` from `ingest_linear.py`: a raised request, a
non-2xx response, a malformed body, and an unmatched channel id all
yield `[]`; a matched channel yields its items (`or []`). -/
def get_channel_items (f : Fetch) (channelId : Option PyVal) : List Item :=
  match f with
  | .payload provs =>
    match findChannel (_norm_id channelId) provs with
    | some ch => ch.items.getD []
    | none => []
  | _ => []

/-- C9: for every channel id, `get_channel_items` returns the empty list
instead of raising whenever the listing request fails (network error,
non-2xx, malformed JSON) or no channel matches the id; consequently
position allocation and duplicate detection seeded from such a snapshot
behave as if the channel had no items. -/
theorem c9_empty_snapshot_on_failure (channelId : Option PyVal) :
    get_channel_items .netErr channelId = [] ∧
    get_channel_items .notOk channelId = [] ∧
    get_channel_items .badJson channelId = [] ∧
    (∀ provs, (∀ p ∈ provs, ∀ ch ∈ p.channels,
        matchesTarget (_norm_id channelId) ch = false) →
      get_channel_items (.payload provs) channelId = []) ∧
    get_next_position [] = 1 ∧
    (∀ v, channel_has_video v [] = false) := by
  refine ⟨rfl, rfl, rfl, ?_, by decide, fun v => rfl⟩
  intro provs hnone
  unfold get_channel_items
  have hfind : findChannel (_norm_id channelId) provs = none := by
    induction provs with
    | nil => rfl
    | cons p ps ih =>
      have hf : p.channels.find? (matchesTarget (_norm_id channelId)) = none := by
        apply List.find?_eq_none.mpr
        intro ch hch
        have := hnone p (List.mem_cons_self _ _) ch hch
        simp [this]
      have hps := ih (fun q hq => hnone q (List.mem_cons_of_mem _ hq))
      simp [findChannel, hf, hps]
  show (match findChannel (_norm_id channelId) provs with
    | some ch => ch.items.getD []
    | none => []) = []
  rw [hfind]

/-- Witness for C9's unmatched-id clause at a concrete payload. -/
theorem c9_empty_snapshot_on_failure_witness :
    get_channel_items (.payload [⟨[⟨some (.vi 7), none, none, some []⟩]⟩])
      (some (.vi 3)) = [] :=
  (c9_empty_snapshot_on_failure (some (.vi 3))).2.2.2.1
    [⟨[⟨some (.vi 7), none, none, some []⟩]⟩] (by decide)

/-! ## Channel resolution by name -/

/-- ASCII case folding (`str.casefold` restricted to the ASCII range). -/
def foldCase (c : Char) : Char :=
  if 'A' ≤ c ∧ c ≤ 'Z' then Char.ofNat (c.toNat + 32) else c

/-- Collapse adjacent spaces (after every whitespace character has been
mapped to a space), so that composed with that map it models
`re.sub(r"\s+", " ", ...)`. -/
def squeezeSpaces : List Char → List Char
  | [] => []
  | [c] => [c]
  | a :: b :: r =>
    if a = ' ' ∧ b = ' ' then squeezeSpaces (b :: r)
    else a :: squeezeSpaces (b :: r)

/-- `_normalize_channel_name` from `ingest_linear.py`: strip, collapse
internal whitespace runs to single spaces, case-fold. -/
def _normalize_channel_name (name : List Char) : List Char :=
  (squeezeSpaces ((stripChars name).map (fun c => if isSpaceC c then ' ' else c))).map foldCase

/-- A flattened channel descriptor (the fields `resolve_channel_by_name`
reads, with `provider` for `_provider_name`). -/
structure Chan where
  name : Option (List Char)
  id : Option PyVal
  channel_number : Option PyVal
  provider : Option (List Char)
deriving DecidableEq

/-- The id/channel_number/provider summary listed by the ambiguity
error. -/
structure ChanSummary where
  id : Option PyVal
  channel_number : Option PyVal
  provider : Option (List Char)
deriving DecidableEq

def summarize (ch : Chan) : ChanSummary := ⟨ch.id, ch.channel_number, ch.provider⟩

inductive ResolveErr
  | emptyName
  | notFound (hint : List (List Char))
  | ambiguous (summaries : List ChanSummary)
deriving DecidableEq

/-- Lexicographic string order by character code (Python `str` order). -/
def lexLe : List Char → List Char → Bool
  | [], _ => true
  | _ :: _, [] => false
  | a :: s, b :: t => if a = b then lexLe s t else decide (a < b)

theorem lexLe_total : ∀ a b : List Char, lexLe a b = true ∨ lexLe b a = true := by
  intro a
  induction a with
  | nil => intro b; exact Or.inl rfl
  | cons x s ih =>
    intro b
    cases b with
    | nil => exact Or.inr rfl
    | cons y t =>
      by_cases hxy : x = y
      · subst hxy
        rcases ih t with h | h
        · exact Or.inl (by simp [lexLe, h])
        · exact Or.inr (by simp [lexLe, h])
      · have hyx : ¬ y = x := fun hh => hxy hh.symm
        rcases Ne.lt_or_lt hxy with h | h
        · exact Or.inl (by simp [lexLe, hxy, h])
        · exact Or.inr (by simp [lexLe, hyx, h])

theorem lexLe_trans : ∀ a b c : List Char,
    lexLe a b = true → lexLe b c = true → lexLe a c = true := by
  intro a
  induction a with
  | nil => intro b c _ _; rfl
  | cons x s ih =>
    intro b c hab hbc
    cases b with
    | nil => simp [lexLe] at hab
    | cons y t =>
      cases c with
      | nil => simp [lexLe] at hbc
      | cons z u =>
        by_cases hxy : x = y
        · subst hxy
          by_cases hyz : x = z
          · subst hyz
            simp only [lexLe, if_pos rfl] at hab hbc ⊢
            exact ih t u hab hbc
          · simp only [lexLe, if_neg hyz] at hbc ⊢
            exact hbc
        · have hxylt : x < y := by
            simp only [lexLe, if_neg hxy] at hab
            exact of_decide_eq_true hab
          by_cases hyz : y = z
          · have hxzlt : x < z := hyz ▸ hxylt
            have hxzne : ¬ x = z := ne_of_lt hxzlt
            simp only [lexLe, if_neg hxzne]
            exact decide_eq_true hxzlt
          · have hyzlt : y < z := by
              simp only [lexLe, if_neg hyz] at hbc
              exact of_decide_eq_true hbc
            have hxz : x < z := lt_trans hxylt hyzlt
            have hxzne : ¬ x = z := ne_of_lt hxz
            simp only [lexLe, if_neg hxzne]
            exact decide_eq_true hxz

/-- The sorting relation used for the not-found hint. -/
def nameLe (a b : List Char) : Prop := lexLe a b = true

instance : DecidableRel nameLe :=
  fun a b => inferInstanceAs (Decidable (lexLe a b = true))

instance : IsTotal (List Char) nameLe := ⟨lexLe_total⟩

instance : IsTrans (List Char) nameLe := ⟨fun _ _ _ => lexLe_trans _ _ _⟩

/-- The non-empty stripped candidate names (the set comprehension of the
not-found error message). -/
def strippedNames (chans : List Chan) : List (List Char) :=
  chans.filterMap (fun c =>
    let s := stripChars (c.name.getD [])
    if s = [] then none else some s)

/-- `sorted({stripped names})[:20]`: distinct names, sorted, capped. -/
def hintOf (chans : List Chan) : List (List Char) :=
  (List.insertionSort nameLe (strippedNames chans).dedup).take 20

/-- `resolve_channel_by_name` from `ingest_linear.py`. -/
def resolve_channel_by_name (name : List Char) (chans : List Chan) :
    Except ResolveErr Chan :=
  let needle := _normalize_channel_name name
  if needle = [] then .error .emptyName
  else
    match chans.filter (fun ch => _normalize_channel_name (ch.name.getD []) == needle) with
    | [] => .error (.notFound (hintOf chans))
    | [m] => .ok m
    | m :: m2 :: rest => .error (.ambiguous ((m :: m2 :: rest).map summarize))

/-- C7: channel resolution normalizes names (whitespace collapse, trim,
case fold) and compares for exact equality only; zero matches fail with
the not-found error carrying at most 20 sorted distinct candidate
names, exactly one match returns that descriptor, and two or more
matches fail with the ambiguity error listing every match's
id/channel_number/provider summary. -/
theorem c7_resolve_channel (name : List Char) (chans : List Chan)
    (hne : _normalize_channel_name name ≠ []) :
    (∀ ch, resolve_channel_by_name name chans = .ok ch ↔
      chans.filter (fun c => _normalize_channel_name (c.name.getD []) ==
        _normalize_channel_name name) = [ch]) ∧
    (chans.filter (fun c => _normalize_channel_name (c.name.getD []) ==
        _normalize_channel_name name) = [] →
      resolve_channel_by_name name chans = .error (.notFound (hintOf chans)) ∧
      (hintOf chans).length ≤ 20 ∧
      List.Pairwise nameLe (hintOf chans) ∧
      (hintOf chans).Nodup) ∧
    (∀ ms, chans.filter (fun c => _normalize_channel_name (c.name.getD []) ==
        _normalize_channel_name name) = ms → 2 ≤ ms.length →
      resolve_channel_by_name name chans = .error (.ambiguous (ms.map summarize))) := by
  have hsort : List.Pairwise nameLe (hintOf chans) := by
    have hs := List.sorted_insertionSort nameLe (strippedNames chans).dedup
    exact List.Pairwise.sublist (List.take_sublist _ _) hs
  have hnodup : (hintOf chans).Nodup := by
    have hd : (strippedNames chans).dedup.Nodup := List.nodup_dedup _
    have hperm := List.perm_insertionSort nameLe (strippedNames chans).dedup
    exact List.Nodup.sublist (List.take_sublist _ _) (hperm.nodup_iff.mpr hd)
  have hlen : (hintOf chans).length ≤ 20 := by
    unfold hintOf
    rw [List.length_take]
    exact min_le_left _ _
  refine ⟨?_, ?_, ?_⟩
  · intro ch
    unfold resolve_channel_by_name
    rw [if_neg hne]
    cases hfilt : chans.filter (fun c => _normalize_channel_name (c.name.getD []) ==
        _normalize_channel_name name) with
    | nil => simp
    | cons m tail =>
      cases tail with
      | nil => simp
      | cons m2 rest => simp
  · intro hfilt
    refine ⟨?_, hlen, hsort, hnodup⟩
    unfold resolve_channel_by_name
    rw [if_neg hne, hfilt]
  · intro ms hfilt hlen2
    unfold resolve_channel_by_name
    rw [if_neg hne, hfilt]
    cases ms with
    | nil => simp at hlen2
    | cons m tail =>
      cases tail with
      | nil => simp at hlen2
      | cons m2 rest => rfl

/-- Witness for C7: an exact whitespace/case-insensitive unique match. -/
theorem c7_resolve_channel_witness :
    resolve_channel_by_name "  news   ONE ".data
      [⟨some "News One".data, some (.vi 7), some (.vs "3".data), some "P".data⟩] =
      .ok ⟨some "News One".data, some (.vi 7), some (.vs "3".data), some "P".data⟩ :=
  ((c7_resolve_channel "  news   ONE ".data
    [⟨some "News One".data, some (.vi 7), some (.vs "3".data), some "P".data⟩]
    (by decide)).1 _).mpr (by decide)

end Ingest
